import Mathlib

/-!
Shallow embedding of `code/train_stage3.py` (chamhoo/structurenet): the
batched tree-recursive training loop of the third training stage.

Modelling conventions:
- Scalar loss tensors are rationals; the point encoder (PointNetEncoder)
  and the decoder's `node_recon_loss` are abstract function parameters.
- Python dicts are association lists in insertion order; a read
  `losses[k]` of a missing key raises KeyError, modelled with
  `Except String` where the error value carries the offending key.
- Division of a float tensor by a zero integer count follows IEEE
  semantics (0/0 is NaN, x/0 is a signed infinity, never an exception);
  this is captured by the `FVal` type below.
- The imperative setup and checkpoint calls of `train` are embedded as
  records and event traces transcribed from the source.
-/

/-- A tree node of the part hierarchy, as consumed by the aggregator: its
normalised geometry tensor `norm_geo` (modelled as one rational) and the
ordered list of child nodes. -/
inductive TreeNode : Type where
  | node : ℚ → List TreeNode → TreeNode

/-- The `norm_geo` attribute of a node. -/
def TreeNode.norm_geo : TreeNode → ℚ
  | .node g _ => g

/-- The `children` attribute of a node. -/
def TreeNode.children : TreeNode → List TreeNode
  | .node _ cs => cs

mutual

/-- Number of nodes of a tree: the root plus all descendants. -/
def TreeNode.size : TreeNode → ℕ
  | .node _ cs => 1 + TreeNode.sizeList cs

/-- Total number of nodes of a list of trees. -/
def TreeNode.sizeList : List TreeNode → ℕ
  | [] => 0
  | t :: ts => TreeNode.size t + TreeNode.sizeList ts

end

mutual

/-- All nodes of a tree in preorder: the root first, then the nodes of the
children in order. -/
def TreeNode.allNodes : TreeNode → List TreeNode
  | .node g cs => .node g cs :: TreeNode.allNodesList cs

/-- All nodes of a list of trees, in order. -/
def TreeNode.allNodesList : List TreeNode → List TreeNode
  | [] => []
  | t :: ts => TreeNode.allNodes t ++ TreeNode.allNodesList ts

end

/-- A Python dict with string keys, as an association list in insertion
order (Python 3.7+ dict semantics). -/
abbrev LDict (α : Type) := List (String × α)

/-- Reading `d[k]`: the value of the first entry whose key is `k`, if any. -/
def lookupD {α : Type} : LDict α → String → Option α
  | [], _ => none
  | p :: ps, k => if p.1 = k then some p.2 else lookupD ps k

/-- Writing `d[k] = v`: replace the value of the first entry whose key is
`k`; a fresh key is appended at the end (Python dict insertion order). -/
def setD {α : Type} : LDict α → String → α → LDict α
  | [], k, v => [(k, v)]
  | p :: ps, k, v => if p.1 = k then (k, v) :: ps else p :: setD ps k v

/-- The key list `d.keys()`, in order. -/
def keysD {α : Type} (d : LDict α) : List String := d.map Prod.fst

/-- One statement `losses[loss_name] = losses[loss_name] + loss` of
`forward_one_node`: the read raises KeyError when `loss_name` is absent
(the error value is the offending key), and the write rebinds the
existing entry. -/
def addLoss (losses : LDict ℚ) (loss_name : String) (loss : ℚ) :
    Except String (LDict ℚ) :=
  match lookupD losses loss_name with
  | none => .error loss_name
  | some old => .ok (setD losses loss_name (old + loss))

/-- The loop `for loss_name, loss in obj_losses.items(): ...` of
`forward_one_node`, over the decoder's per-node loss mapping. -/
def addLosses (losses : LDict ℚ) : List (String × ℚ) → Except String (LDict ℚ)
  | [] => .ok losses
  | (k, v) :: rest =>
    match addLoss losses k v with
    | .error e => .error e
    | .ok d => addLosses d rest

/-- The function `forward_one_node(obj_node, pointencoder, decoder, losses)`:
encode the node's geometry with the point encoder, ask the decoder for the
per-node loss mapping `node_recon_loss(root_code, obj_node)`, and add each
named loss into the accumulator.  `pointencoder` maps a geometry tensor to
a code; `node_recon_loss` maps a code and a node to the named loss list. -/
def forward_one_node (pointencoder : ℚ → ℚ)
    (node_recon_loss : ℚ → TreeNode → List (String × ℚ))
    (obj_node : TreeNode) (losses : LDict ℚ) : Except String (LDict ℚ) :=
  let root_code := pointencoder obj_node.norm_geo
  let obj_losses := node_recon_loss root_code obj_node
  addLosses losses obj_losses

mutual

/-- The function `forward_one_obj(obj_node, pointnet, decoder, losses, cnt)`:
process the current node, add 1 to the visit count, then recurse into the
children in order, threading the accumulator and the count. -/
def forward_one_obj (pointnet : ℚ → ℚ)
    (node_recon_loss : ℚ → TreeNode → List (String × ℚ)) :
    TreeNode → LDict ℚ → ℕ → Except String (LDict ℚ × ℕ)
  | .node g cs, losses, cnt =>
    match forward_one_node pointnet node_recon_loss (.node g cs) losses with
    | .error e => .error e
    | .ok losses => forward_one_obj_children pointnet node_recon_loss cs losses (cnt + 1)

/-- The loop `for child in obj_node.children: losses, cnt = forward_one_obj(...)`
(an empty child list makes it a no-op, matching `if obj_node.children:`). -/
def forward_one_obj_children (pointnet : ℚ → ℚ)
    (node_recon_loss : ℚ → TreeNode → List (String × ℚ)) :
    List TreeNode → LDict ℚ → ℕ → Except String (LDict ℚ × ℕ)
  | [], losses, cnt => .ok (losses, cnt)
  | c :: cs, losses, cnt =>
    match forward_one_obj pointnet node_recon_loss c losses cnt with
    | .error e => .error e
    | .ok (losses, cnt) => forward_one_obj_children pointnet node_recon_loss cs losses cnt

end

/-- A float scalar: finite, positive infinity, negative infinity, or NaN.
Models the value of a loss tensor after the normalisation division, which
in the source is IEEE float division (never an exception). -/
inductive FVal : Type where
  | nan : FVal
  | pinf : FVal
  | ninf : FVal
  | fin : ℚ → FVal
deriving DecidableEq

/-- IEEE float addition on `FVal` (for the values arising here: NaN
propagates, opposite infinities give NaN). -/
def FVal.add : FVal → FVal → FVal
  | .nan, _ => .nan
  | _, .nan => .nan
  | .pinf, .ninf => .nan
  | .ninf, .pinf => .nan
  | .pinf, _ => .pinf
  | _, .pinf => .pinf
  | .ninf, _ => .ninf
  | _, .ninf => .ninf
  | .fin a, .fin b => .fin (a + b)

/-- IEEE multiplication of a float by a finite scalar `c` (a loss weight):
NaN propagates, `0 * inf` is NaN. -/
def FVal.smul (c : ℚ) : FVal → FVal
  | .nan => .nan
  | .pinf => if 0 < c then .pinf else if c < 0 then .ninf else .nan
  | .ninf => if 0 < c then .ninf else if c < 0 then .pinf else .nan
  | .fin a => .fin (c * a)

/-- IEEE division of a finite float `a` by the integer count `n` (the
statement `losses[loss_name] / cnt`): for `n = 0` it yields NaN when
`a = 0` and a signed infinity otherwise — never an exception. -/
def fdivCnt (a : ℚ) (n : ℕ) : FVal :=
  if n = 0 then (if a = 0 then .nan else if 0 < a then .pinf else .ninf)
  else .fin (a / n)

/-- One training example as consumed by `forward`: an object exposing its
root tree node (`obj.root`). -/
structure PObject : Type where
  root : TreeNode

/-- The loss-weight part of the run configuration `conf` used by
`forward`. -/
structure Conf : Type where
  loss_weight_latent : ℚ
  loss_weight_geo : ℚ
  loss_weight_center : ℚ
  loss_weight_scale : ℚ
  loss_weight_leaf : ℚ
  loss_weight_exists : ℚ
  loss_weight_semantic : ℚ
  loss_weight_edge_exists : ℚ
  loss_weight_sym : ℚ
  loss_weight_adj : ℚ

/-- The accumulator dict initialised at the top of `forward`: exactly the
ten loss-term names, in the source's insertion order, all zero. -/
def initLosses : LDict ℚ :=
  [("latent", 0), ("geo", 0), ("center", 0), ("scale", 0), ("leaf", 0),
   ("exists", 0), ("semantic", 0), ("edge_exists", 0), ("sym", 0), ("adj", 0)]

set_option linter.unusedVariables false in
/-- The loop `for obj in objects:` of `forward`: run the frozen structure
encoder on the object (`root_code = encoder.encode_structure(obj=obj)`,
result unused), then run `forward_one_obj` on `obj.root`, threading the
accumulator and the count across the whole batch.  `encode_structure`
abstracts the frozen structure encoder. -/
def batchAccum (encode_structure : PObject → ℚ) (point : ℚ → ℚ)
    (node_recon_loss : ℚ → TreeNode → List (String × ℚ)) :
    List PObject → LDict ℚ → ℕ → Except String (LDict ℚ × ℕ)
  | [], losses, cnt => .ok (losses, cnt)
  | obj :: objs, losses, cnt =>
    let root_code := encode_structure obj
    match forward_one_obj point node_recon_loss obj.root losses cnt with
    | .error e => .error e
    | .ok (losses, cnt) => batchAccum encode_structure point node_recon_loss objs losses cnt

/-- The loop `for loss_name in losses.keys(): losses[loss_name] =
losses[loss_name] / cnt` of `forward`: every slot is divided by the one
final count, with IEEE float semantics. -/
def normalizeLosses (losses : LDict ℚ) (cnt : ℕ) : LDict FVal :=
  losses.map (fun p => (p.1, fdivCnt p.2 cnt))

/-- One statement `losses[k] *= w` of the weighting block of `forward`:
read (KeyError when absent) then rebind with the weighted value. -/
def mulKey (losses : LDict FVal) (k : String) (w : ℚ) :
    Except String (LDict FVal) :=
  match lookupD losses k with
  | none => .error k
  | some v => .ok (setD losses k (FVal.smul w v))

/-- The statements `total_loss = 0; for loss in losses.values():
total_loss += loss` of `forward`. -/
def totalOf (losses : LDict FVal) : FVal :=
  (losses.map Prod.snd).foldl FVal.add (FVal.fin 0)

/-- The function `forward` of `train_stage3.py`, restricted to its loss
computation (logging writes no state that later steps read): initialise the
ten-slot accumulator, accumulate over every object of the batch with a
single running count, divide every slot by the final count, weight each
slot, and sum all slots into the scalar total loss.  Returns the weighted
per-term dict together with the total loss. -/
def forward (encode_structure : PObject → ℚ) (point : ℚ → ℚ)
    (node_recon_loss : ℚ → TreeNode → List (String × ℚ)) (conf : Conf)
    (objects : List PObject) : Except String (LDict FVal × FVal) := do
  let (acc, cnt) ← batchAccum encode_structure point node_recon_loss objects initLosses 0
  let d := normalizeLosses acc cnt
  let d ← mulKey d "latent" conf.loss_weight_latent
  let d ← mulKey d "geo" conf.loss_weight_geo
  let d ← mulKey d "center" conf.loss_weight_center
  let d ← mulKey d "scale" conf.loss_weight_scale
  let d ← mulKey d "leaf" conf.loss_weight_leaf
  let d ← mulKey d "exists" conf.loss_weight_exists
  let d ← mulKey d "semantic" conf.loss_weight_semantic
  let d ← mulKey d "edge_exists" conf.loss_weight_edge_exists
  let d ← mulKey d "sym" conf.loss_weight_sym
  let d ← mulKey d "adj" conf.loss_weight_adj
  return (d, totalOf d)

/-- A configuration with every loss weight equal to 1. -/
def unitConf : Conf := ⟨1, 1, 1, 1, 1, 1, 1, 1, 1, 1⟩

/-- The ten-slot dict with every value NaN. -/
def allNanLosses : LDict FVal :=
  [("latent", .nan), ("geo", .nan), ("center", .nan), ("scale", .nan),
   ("leaf", .nan), ("exists", .nan), ("semantic", .nan),
   ("edge_exists", .nan), ("sym", .nan), ("adj", .nan)]

/-- Specification device (not source code): rewrite every value of a dict
pointwise, keeping the key structure. -/
def mapVals {α : Type} (f : String → α → α) (d : LDict α) : LDict α :=
  d.map (fun p => (p.1, f p.1 p.2))

theorem mapVals_cons {α : Type} (f : String → α → α) (p : String × α)
    (ps : LDict α) :
    mapVals f (p :: ps) = (p.1, f p.1 p.2) :: mapVals f ps := rfl

theorem keysD_mapVals {α : Type} (f : String → α → α) (d : LDict α) :
    keysD (mapVals f d) = keysD d := by
  simp [keysD, mapVals, List.map_map]

theorem mapVals_mapVals {α : Type} (f g : String → α → α) (d : LDict α) :
    mapVals f (mapVals g d) = mapVals (fun k x => f k (g k x)) d := by
  simp [mapVals, List.map_map]

theorem mapVals_entry_congr {α : Type} {f g : String → α → α} {d : LDict α}
    (h : ∀ p ∈ d, f p.1 p.2 = g p.1 p.2) : mapVals f d = mapVals g d := by
  induction d with
  | nil => rfl
  | cons p ps ih =>
    simp only [mapVals, List.map_cons, List.map] at ih ⊢
    have hp := h p (by simp)
    rw [hp, ih (fun q hq => h q (by simp [hq]))]

theorem mapVals_id {α : Type} (d : LDict α) : mapVals (fun _ x => x) d = d := by
  simp [mapVals]

theorem lookupD_eq_none_iff {α : Type} (d : LDict α) (k : String) :
    lookupD d k = none ↔ k ∉ keysD d := by
  induction d with
  | nil => simp [lookupD, keysD]
  | cons p ps ih =>
    by_cases hp : p.1 = k
    · simp [lookupD, keysD, hp]
    · simp [lookupD, keysD, hp, ih, Ne.symm hp]

theorem lookupD_isSome_of_mem {α : Type} {d : LDict α} {k : String}
    (h : k ∈ keysD d) : ∃ v, lookupD d k = some v := by
  cases hv : lookupD d k with
  | none => exact absurd ((lookupD_eq_none_iff d k).mp hv) (not_not_intro h)
  | some v => exact ⟨v, rfl⟩

theorem entry_val_of_lookup {α : Type} {d : LDict α} {k : String} {v : α}
    (hnd : (keysD d).Nodup) (hv : lookupD d k = some v) :
    ∀ p ∈ d, p.1 = k → p.2 = v := by
  induction d with
  | nil => intro p hp; exact absurd hp (List.not_mem_nil p)
  | cons q qs ih =>
    simp only [keysD, List.map_cons, List.nodup_cons] at hnd
    intro p hp hpk
    rcases List.mem_cons.mp hp with rfl | hp
    · rw [lookupD, if_pos hpk] at hv
      exact Option.some.inj hv
    · have hqk : ¬ q.1 = k := by
        intro hq
        exact hnd.1 (hq ▸ (hpk ▸ List.mem_map_of_mem Prod.fst hp))
      rw [lookupD, if_neg hqk] at hv
      exact ih hnd.2 hv p hp hpk

theorem mapVals_if_not_mem {α : Type} {d : LDict α} {k : String} (w : α)
    (hk : k ∉ keysD d) :
    mapVals (fun j x => if j = k then w else x) d = d := by
  rw [mapVals_entry_congr (g := fun _ x => x), mapVals_id]
  intro p hp
  have : p.1 ≠ k := fun h => hk (h ▸ List.mem_map_of_mem Prod.fst hp)
  simp [this]

theorem setD_eq_mapVals {α : Type} {d : LDict α} {k : String} (w : α)
    (hnd : (keysD d).Nodup) (hk : k ∈ keysD d) :
    setD d k w = mapVals (fun j x => if j = k then w else x) d := by
  induction d with
  | nil => exact absurd hk (by simp [keysD])
  | cons p ps ih =>
    have hnd2 : p.1 ∉ keysD ps ∧ (keysD ps).Nodup := by
      simpa [keysD] using hnd
    by_cases hp : p.1 = k
    · have hknotin : k ∉ keysD ps := hp ▸ hnd2.1
      rw [mapVals_cons, mapVals_if_not_mem w hknotin]
      simp [setD, hp]
    · have hk' : k ∈ keysD ps := by
        rcases (by simpa [keysD] using hk : k = p.1 ∨ k ∈ keysD ps) with h | h
        · exact absurd h.symm hp
        · exact h
      rw [mapVals_cons]
      simp [setD, hp, ih hnd2.2 hk']

/-- Specification device: the total contribution of one per-node loss list
to the accumulator slot named `j` (sum of the values carrying that name). -/
def listDelta : List (String × ℚ) → String → ℚ
  | [], _ => 0
  | (k, v) :: rest, j => (if k = j then v else 0) + listDelta rest j

theorem addLosses_char :
    ∀ (l : List (String × ℚ)) (d : LDict ℚ), (keysD d).Nodup →
      (∀ p ∈ l, p.1 ∈ keysD d) →
      addLosses d l = .ok (mapVals (fun j x => x + listDelta l j) d) := by
  intro l
  induction l with
  | nil =>
    intro d _ _
    simp only [addLosses, listDelta]
    rw [mapVals_entry_congr (g := fun _ x => x), mapVals_id]
    intro p _; simp
  | cons kv rest ih =>
    intro d hnd hin
    obtain ⟨k, v⟩ := kv
    have hk : k ∈ keysD d := hin (k, v) (by simp)
    obtain ⟨old, hold⟩ := lookupD_isSome_of_mem hk
    have hstep : setD d k (old + v) =
        mapVals (fun j x => if j = k then x + v else x) d := by
      rw [setD_eq_mapVals (old + v) hnd hk]
      exact mapVals_entry_congr (fun p hp => by
        by_cases hpk : p.1 = k
        · rw [entry_val_of_lookup hnd hold p hp hpk]
        · simp [hpk])
    have hnd1 : (keysD (setD d k (old + v))).Nodup := by
      rw [hstep, keysD_mapVals]; exact hnd
    have hin1 : ∀ p ∈ rest, p.1 ∈ keysD (setD d k (old + v)) := by
      rw [hstep, keysD_mapVals]
      exact fun p hp => hin p (by simp [hp])
    simp only [addLosses, addLoss, hold]
    rw [ih (setD d k (old + v)) hnd1 hin1, hstep, mapVals_mapVals]
    congr 1
    apply mapVals_entry_congr
    intro p _
    simp only [listDelta]
    by_cases hpk : p.1 = k
    · simp [hpk, add_assoc]
    · simp [hpk, Ne.symm hpk]

/-- Specification device: the total contribution of a list of nodes (their
decoder loss lists) to the accumulator slot named `j`. -/
def nodesDelta (pe : ℚ → ℚ) (nrl : ℚ → TreeNode → List (String × ℚ))
    (ns : List TreeNode) (j : String) : ℚ :=
  (ns.map (fun n => listDelta (nrl (pe n.norm_geo) n) j)).sum

theorem nodesDelta_nil (pe : ℚ → ℚ) (nrl : ℚ → TreeNode → List (String × ℚ))
    (j : String) : nodesDelta pe nrl [] j = 0 := rfl

theorem nodesDelta_cons (pe : ℚ → ℚ) (nrl : ℚ → TreeNode → List (String × ℚ))
    (n : TreeNode) (ns : List TreeNode) (j : String) :
    nodesDelta pe nrl (n :: ns) j =
      listDelta (nrl (pe n.norm_geo) n) j + nodesDelta pe nrl ns j := by
  simp [nodesDelta]

theorem nodesDelta_append (pe : ℚ → ℚ)
    (nrl : ℚ → TreeNode → List (String × ℚ)) (as bs : List TreeNode)
    (j : String) :
    nodesDelta pe nrl (as ++ bs) j =
      nodesDelta pe nrl as j + nodesDelta pe nrl bs j := by
  simp [nodesDelta]

/-- The decoder's loss names over all the given nodes lie inside the key
vocabulary `ks` (reducible so that concrete instances are decidable). -/
abbrev namesOkOn (pe : ℚ → ℚ) (nrl : ℚ → TreeNode → List (String × ℚ))
    (ns : List TreeNode) (ks : List String) : Prop :=
  ∀ n ∈ ns, ∀ p ∈ nrl (pe n.norm_geo) n, p.1 ∈ ks

mutual

/-- Characterisation of `forward_one_obj`: on a well-named tree it
succeeds, adds every node's contribution to each slot, and adds the tree's
node count to the running count. -/
theorem forward_one_obj_char (pe : ℚ → ℚ)
    (nrl : ℚ → TreeNode → List (String × ℚ)) :
    ∀ (t : TreeNode) (d : LDict ℚ) (c : ℕ), (keysD d).Nodup →
      namesOkOn pe nrl t.allNodes (keysD d) →
      forward_one_obj pe nrl t d c =
        .ok (mapVals (fun j x => x + nodesDelta pe nrl t.allNodes j) d,
          c + t.size)
  | .node g cs, d, c, hnd, hok => by
    have hroot : ∀ p ∈ nrl (pe g) (TreeNode.node g cs), p.1 ∈ keysD d := by
      have h := hok (TreeNode.node g cs)
        (by rw [TreeNode.allNodes]; exact List.mem_cons_self _ _)
      simpa [TreeNode.norm_geo] using h
    have hnode : forward_one_node pe nrl (TreeNode.node g cs) d =
        .ok (mapVals (fun j x =>
          x + listDelta (nrl (pe g) (TreeNode.node g cs)) j) d) := by
      rw [forward_one_node]
      exact addLosses_char _ d hnd (by simpa [TreeNode.norm_geo] using hroot)
    have hnd1 : (keysD (mapVals (fun j x =>
        x + listDelta (nrl (pe g) (TreeNode.node g cs)) j) d)).Nodup := by
      rw [keysD_mapVals]; exact hnd
    have hok1 : namesOkOn pe nrl (TreeNode.allNodesList cs)
        (keysD (mapVals (fun j x =>
          x + listDelta (nrl (pe g) (TreeNode.node g cs)) j) d)) := by
      rw [keysD_mapVals]
      intro n hn
      exact hok n (by rw [TreeNode.allNodes]; exact List.mem_cons_of_mem _ hn)
    have hrec := forward_one_obj_children_char pe nrl cs
      (mapVals (fun j x =>
        x + listDelta (nrl (pe g) (TreeNode.node g cs)) j) d)
      (c + 1) hnd1 hok1
    rw [forward_one_obj, hnode]
    dsimp only
    rw [hrec, mapVals_mapVals]
    have hsz : c + 1 + TreeNode.sizeList cs = c + TreeNode.size (.node g cs) := by
      rw [TreeNode.size]; omega
    rw [hsz]
    congr 2
    apply mapVals_entry_congr
    intro p _
    rw [TreeNode.allNodes, nodesDelta_cons]
    simp [TreeNode.norm_geo, add_assoc]

/-- Characterisation of the children loop of `forward_one_obj`. -/
theorem forward_one_obj_children_char (pe : ℚ → ℚ)
    (nrl : ℚ → TreeNode → List (String × ℚ)) :
    ∀ (ts : List TreeNode) (d : LDict ℚ) (c : ℕ), (keysD d).Nodup →
      namesOkOn pe nrl (TreeNode.allNodesList ts) (keysD d) →
      forward_one_obj_children pe nrl ts d c =
        .ok (mapVals (fun j x =>
          x + nodesDelta pe nrl (TreeNode.allNodesList ts) j) d,
          c + TreeNode.sizeList ts)
  | [], d, c, _, _ => by
    rw [forward_one_obj_children, TreeNode.allNodesList, TreeNode.sizeList]
    rw [mapVals_entry_congr (g := fun _ x => x), mapVals_id]
    · rfl
    · intro p _; rw [nodesDelta_nil, add_zero]
  | t :: ts, d, c, hnd, hok => by
    have hokt : namesOkOn pe nrl t.allNodes (keysD d) := by
      intro n hn
      exact hok n (by rw [TreeNode.allNodesList]; exact List.mem_append_left _ hn)
    have hstep := forward_one_obj_char pe nrl t d c hnd hokt
    have hnd1 : (keysD (mapVals (fun j x =>
        x + nodesDelta pe nrl t.allNodes j) d)).Nodup := by
      rw [keysD_mapVals]; exact hnd
    have hok1 : namesOkOn pe nrl (TreeNode.allNodesList ts)
        (keysD (mapVals (fun j x => x + nodesDelta pe nrl t.allNodes j) d)) := by
      rw [keysD_mapVals]
      intro n hn
      exact hok n (by rw [TreeNode.allNodesList]; exact List.mem_append_right _ hn)
    have hrec := forward_one_obj_children_char pe nrl ts
      (mapVals (fun j x => x + nodesDelta pe nrl t.allNodes j) d)
      (c + t.size) hnd1 hok1
    rw [forward_one_obj_children, hstep]
    dsimp only
    rw [hrec, mapVals_mapVals]
    have hsz : c + t.size + TreeNode.sizeList ts =
        c + TreeNode.sizeList (t :: ts) := by
      rw [TreeNode.sizeList]; omega
    rw [hsz]
    congr 2
    apply mapVals_entry_congr
    intro p _
    rw [TreeNode.allNodesList, nodesDelta_append]
    rw [add_assoc]

end

theorem lookupD_mem_of_some {α : Type} {d : LDict α} {k : String} {v : α}
    (h : lookupD d k = some v) : k ∈ keysD d := by
  by_contra hk
  rw [(lookupD_eq_none_iff d k).mpr hk] at h
  exact Option.noConfusion h

theorem keysD_setD {α : Type} {d : LDict α} {k : String} (v : α)
    (hk : k ∈ keysD d) : keysD (setD d k v) = keysD d := by
  induction d with
  | nil => exact absurd hk (by simp [keysD])
  | cons p ps ih =>
    by_cases hp : p.1 = k
    · simp [setD, hp, keysD]
    · have hk' : k ∈ keysD ps := by
        rcases (by simpa [keysD] using hk : k = p.1 ∨ k ∈ keysD ps) with h | h
        · exact absurd h.symm hp
        · exact h
      have ih' := ih hk'
      simp only [setD, if_neg hp, keysD, List.map_cons]
      simp only [keysD] at ih'
      rw [ih']

theorem addLosses_ok_keys :
    ∀ {l : List (String × ℚ)} {d d' : LDict ℚ},
      addLosses d l = .ok d' → keysD d' = keysD d := by
  intro l
  induction l with
  | nil =>
    intro d d' h
    rw [addLosses] at h
    cases h
    rfl
  | cons kv rest ih =>
    intro d d' h
    obtain ⟨k, v⟩ := kv
    rw [addLosses, addLoss] at h
    cases hl : lookupD d k with
    | none => rw [hl] at h; exact absurd h (by simp)
    | some old =>
      rw [hl] at h
      dsimp only at h
      rw [ih h, keysD_setD _ (lookupD_mem_of_some hl)]

theorem addLosses_error_of_bad :
    ∀ {l : List (String × ℚ)} {d : LDict ℚ},
      (∃ p ∈ l, p.1 ∉ keysD d) → ∃ e, addLosses d l = .error e := by
  intro l
  induction l with
  | nil =>
    intro d h
    obtain ⟨p, hp, _⟩ := h
    exact absurd hp (List.not_mem_nil p)
  | cons kv rest ih =>
    intro d h
    obtain ⟨k, v⟩ := kv
    cases hl : lookupD d k with
    | none => exact ⟨k, by rw [addLosses, addLoss, hl]⟩
    | some old =>
      obtain ⟨p, hp, hpk⟩ := h
      have hrest : ∃ p ∈ rest, p.1 ∉ keysD (setD d k (old + v)) := by
        rcases List.mem_cons.mp hp with rfl | hp'
        · exact absurd (lookupD_mem_of_some hl) hpk
        · exact ⟨p, hp', by
            rw [keysD_setD _ (lookupD_mem_of_some hl)]; exact hpk⟩
      obtain ⟨e, he⟩ := ih hrest
      exact ⟨e, by rw [addLosses, addLoss, hl]; exact he⟩

theorem mem_allNodesList_of_mem {t : TreeNode} {ts : List TreeNode}
    (ht : t ∈ ts) {n : TreeNode} (hn : n ∈ t.allNodes) :
    n ∈ TreeNode.allNodesList ts := by
  induction ts with
  | nil => exact absurd ht (List.not_mem_nil t)
  | cons s ss ih =>
    rw [TreeNode.allNodesList]
    rcases List.mem_cons.mp ht with rfl | ht'
    · exact List.mem_append_left _ hn
    · exact List.mem_append_right _ (ih ht')

theorem sizeList_eq_sum_map (ts : List TreeNode) :
    TreeNode.sizeList ts = (ts.map TreeNode.size).sum := by
  induction ts with
  | nil => rfl
  | cons t ts ih => rw [TreeNode.sizeList, List.map_cons, List.sum_cons, ih]

/-- Characterisation of the batch loop of `forward`: with well-named
decoder output it succeeds, the final count is the previous count plus the
total node count over all objects, and every slot receives the total
contribution of all nodes of all objects. -/
theorem batchAccum_char (encS : PObject → ℚ) (pe : ℚ → ℚ)
    (nrl : ℚ → TreeNode → List (String × ℚ)) :
    ∀ (objs : List PObject) (d : LDict ℚ) (c : ℕ), (keysD d).Nodup →
      namesOkOn pe nrl (TreeNode.allNodesList (objs.map PObject.root)) (keysD d) →
      batchAccum encS pe nrl objs d c =
        .ok (mapVals (fun j x =>
          x + nodesDelta pe nrl (TreeNode.allNodesList (objs.map PObject.root)) j) d,
          c + TreeNode.sizeList (objs.map PObject.root)) := by
  intro objs
  induction objs with
  | nil =>
    intro d c _ _
    rw [batchAccum]
    rw [mapVals_entry_congr (g := fun _ x => x), mapVals_id]
    · rfl
    · intro p _
      rw [List.map_nil, TreeNode.allNodesList, nodesDelta_nil, add_zero]
  | cons o os ih =>
    intro d c hnd hok
    have hokt : namesOkOn pe nrl o.root.allNodes (keysD d) := fun n hn =>
      hok n (by
        rw [List.map_cons, TreeNode.allNodesList]
        exact List.mem_append_left _ hn)
    have hstep := forward_one_obj_char pe nrl o.root d c hnd hokt
    have hnd1 : (keysD (mapVals (fun j x =>
        x + nodesDelta pe nrl o.root.allNodes j) d)).Nodup := by
      rw [keysD_mapVals]; exact hnd
    have hok1 : namesOkOn pe nrl (TreeNode.allNodesList (os.map PObject.root))
        (keysD (mapVals (fun j x => x + nodesDelta pe nrl o.root.allNodes j) d)) := by
      rw [keysD_mapVals]
      intro n hn
      exact hok n (by
        rw [List.map_cons, TreeNode.allNodesList]
        exact List.mem_append_right _ hn)
    have hrec := ih (mapVals (fun j x => x + nodesDelta pe nrl o.root.allNodes j) d)
      (c + o.root.size) hnd1 hok1
    rw [batchAccum, hstep]
    dsimp only
    rw [hrec, mapVals_mapVals]
    have hsz : c + o.root.size + TreeNode.sizeList (os.map PObject.root) =
        c + TreeNode.sizeList ((o :: os).map PObject.root) := by
      rw [List.map_cons, TreeNode.sizeList]; omega
    rw [hsz]
    congr 2
    apply mapVals_entry_congr
    intro p _
    rw [List.map_cons, TreeNode.allNodesList, nodesDelta_append, add_assoc]

theorem lookupD_normalizeLosses {d : LDict ℚ} {k : String} {v : ℚ}
    (cnt : ℕ) (h : lookupD d k = some v) :
    lookupD (normalizeLosses d cnt) k = some (fdivCnt v cnt) := by
  induction d with
  | nil => exact absurd h (by rw [lookupD]; exact Option.noConfusion)
  | cons p ps ih =>
    by_cases hp : p.1 = k
    · rw [lookupD, if_pos hp] at h
      cases h
      rw [normalizeLosses, List.map_cons, lookupD, if_pos hp]
    · rw [lookupD, if_neg hp] at h
      rw [normalizeLosses, List.map_cons, lookupD, if_neg hp]
      exact ih h

theorem initLosses_vals_zero : ∀ p ∈ initLosses, p.2 = 0 := by decide

theorem initLosses_keys_nodup : (keysD initLosses).Nodup := by decide

/-- Specification device: the term-by-term sum of two accumulators having
the same key layout. -/
def dictAdd (a b : LDict ℚ) : LDict ℚ :=
  List.zipWith (fun p q => (p.1, p.2 + q.2)) a b

theorem dictAdd_mapVals {d : LDict ℚ} (hz : ∀ p ∈ d, p.2 = 0)
    (f g : String → ℚ) :
    dictAdd (mapVals (fun j x => x + f j) d) (mapVals (fun j x => x + g j) d) =
      mapVals (fun j x => x + (f j + g j)) d := by
  induction d with
  | nil => rfl
  | cons p ps ih =>
    have hp0 : p.2 = 0 := hz p (by simp)
    have ih' := ih (fun q hq => hz q (by simp [hq]))
    rw [dictAdd] at ih' ⊢
    rw [mapVals_cons, mapVals_cons, mapVals_cons, List.zipWith_cons_cons, ih']
    dsimp only
    rw [hp0]
    simp

theorem foldl_parts_general (pe : ℚ → ℚ)
    (nrl : ℚ → TreeNode → List (String × ℚ)) :
    ∀ (forest : List TreeNode) (a : String → ℚ),
      (forest.map (fun t =>
          mapVals (fun j x => x + nodesDelta pe nrl t.allNodes j)
            initLosses)).foldl dictAdd
          (mapVals (fun j x => x + a j) initLosses) =
        mapVals (fun j x =>
          x + (a j + nodesDelta pe nrl (TreeNode.allNodesList forest) j))
          initLosses := by
  intro forest
  induction forest with
  | nil =>
    intro a
    rw [List.map_nil, List.foldl_nil]
    apply mapVals_entry_congr
    intro p _
    rw [TreeNode.allNodesList, nodesDelta_nil, add_zero]
  | cons t ts ih =>
    intro a
    rw [List.map_cons, List.foldl_cons,
      dictAdd_mapVals initLosses_vals_zero, ih]
    apply mapVals_entry_congr
    intro p _
    rw [TreeNode.allNodesList, nodesDelta_append]
    ring

theorem foldl_parts_zero (pe : ℚ → ℚ)
    (nrl : ℚ → TreeNode → List (String × ℚ)) (forest : List TreeNode) :
    (forest.map (fun t =>
        mapVals (fun j x => x + nodesDelta pe nrl t.allNodes j)
          initLosses)).foldl dictAdd initLosses =
      mapVals (fun j x =>
        x + nodesDelta pe nrl (TreeNode.allNodesList forest) j) initLosses := by
  have h0 : mapVals (fun j x => x + (fun _ : String => (0 : ℚ)) j) initLosses =
      initLosses := by
    rw [mapVals_entry_congr (g := fun _ x => x), mapVals_id]
    intro p _
    rw [add_zero]
  calc (forest.map (fun t =>
        mapVals (fun j x => x + nodesDelta pe nrl t.allNodes j)
          initLosses)).foldl dictAdd initLosses
      = (forest.map (fun t =>
          mapVals (fun j x => x + nodesDelta pe nrl t.allNodes j)
            initLosses)).foldl dictAdd
          (mapVals (fun j x => x + (fun _ : String => (0 : ℚ)) j) initLosses) := by
        rw [h0]
    _ = mapVals (fun j x =>
          x + ((fun _ : String => (0 : ℚ)) j +
            nodesDelta pe nrl (TreeNode.allNodesList forest) j)) initLosses :=
        foldl_parts_general pe nrl forest _
    _ = mapVals (fun j x =>
          x + nodesDelta pe nrl (TreeNode.allNodesList forest) j) initLosses := by
        apply mapVals_entry_congr
        intro p _
        rw [zero_add]

theorem nodesDelta_allNodesList (pe : ℚ → ℚ)
    (nrl : ℚ → TreeNode → List (String × ℚ)) (ts : List TreeNode) (j : String) :
    nodesDelta pe nrl (TreeNode.allNodesList ts) j =
      (ts.map (fun t => nodesDelta pe nrl t.allNodes j)).sum := by
  induction ts with
  | nil => rw [TreeNode.allNodesList, nodesDelta_nil, List.map_nil, List.sum_nil]
  | cons t ts ih =>
    rw [TreeNode.allNodesList, nodesDelta_append, List.map_cons, List.sum_cons, ih]

/-- Tree A of the spec's example scenario: a root with two children, every
node contributing `geo = 1`. -/
def treeA : TreeNode := .node 1 [.node 1 [], .node 1 []]

/-- Tree B of the spec's example scenario: a single node contributing
`geo = 2`. -/
def treeB : TreeNode := .node 2 []

/-- Example decoder for the scenario: one `geo` loss equal to the node's
code (with the identity point encoder, the node's geometry). -/
def geoDec : ℚ → TreeNode → List (String × ℚ) := fun code _ => [("geo", code)]

/-- The accumulator after the example batch: `geo` slot 5, the other nine
slots 0. -/
def accEx : LDict ℚ :=
  [("latent", 0), ("geo", 5), ("center", 0), ("scale", 0), ("leaf", 0),
   ("exists", 0), ("semantic", 0), ("edge_exists", 0), ("sym", 0), ("adj", 0)]

/-- C3: for every batch whose decoder loss names lie in the ten-name
vocabulary, the batch loop of `forward` succeeds and its final visit count
equals the total number of nodes (root plus descendants) summed over all
objects — the count is threaded across objects, never reset — and the
normalisation step divides every accumulator slot by that single count.
In particular, for a batch of a 3-node tree with `geo = 1` per node and a
1-node tree with `geo = 2`, the accumulated `geo` is 5, the count is 4,
and the normalised `geo` before weighting is 5/4 = 1.25. -/
theorem batch_visit_count_single_denominator (encS : PObject → ℚ)
    (pe : ℚ → ℚ) (nrl : ℚ → TreeNode → List (String × ℚ))
    (objs : List PObject)
    (hok : namesOkOn pe nrl (TreeNode.allNodesList (objs.map PObject.root))
      (keysD initLosses)) :
    (∃ acc, batchAccum encS pe nrl objs initLosses 0 =
        .ok (acc, TreeNode.sizeList (objs.map PObject.root)) ∧
      ∀ k v, lookupD acc k = some v →
        lookupD (normalizeLosses acc (TreeNode.sizeList (objs.map PObject.root))) k =
          some (fdivCnt v (TreeNode.sizeList (objs.map PObject.root)))) ∧
    batchAccum (fun _ => 0) (fun x => x) geoDec
      [⟨treeA⟩, ⟨treeB⟩] initLosses 0 = .ok (accEx, 4) ∧
    lookupD (normalizeLosses accEx 4) "geo" = some (.fin (5 / 4)) ∧
    (5 : ℚ) / 4 = 1.25 := by
  refine ⟨?_, ?_, ?_, by norm_num⟩
  · refine ⟨mapVals (fun j x =>
      x + nodesDelta pe nrl (TreeNode.allNodesList (objs.map PObject.root)) j)
      initLosses, ?_, ?_⟩
    · simpa using
        batchAccum_char encS pe nrl objs initLosses 0 initLosses_keys_nodup hok
    · intro k v h
      exact lookupD_normalizeLosses _ h
  · simp +decide [batchAccum, forward_one_obj, forward_one_obj_children,
      forward_one_node, addLosses, addLoss, lookupD, setD, initLosses, accEx,
      treeA, treeB, geoDec, TreeNode.norm_geo]
    norm_num
  · simp +decide [normalizeLosses, accEx, lookupD, fdivCnt]

/-- Closed witness for the hypotheses of the batch-count theorem: the
example batch itself satisfies the name condition, and the theorem applies
to it. -/
theorem batch_visit_count_single_denominator_witness :
    namesOkOn (fun x => x) geoDec
      (TreeNode.allNodesList ([⟨treeA⟩, ⟨treeB⟩].map PObject.root))
      (keysD initLosses) ∧
    ∃ acc, batchAccum (fun _ => 0) (fun x => x) geoDec [⟨treeA⟩, ⟨treeB⟩]
        initLosses 0 =
      .ok (acc, TreeNode.sizeList ([⟨treeA⟩, ⟨treeB⟩].map PObject.root)) :=
  ⟨by decide, by
    obtain ⟨⟨acc, hacc, _⟩, _⟩ :=
      batch_visit_count_single_denominator (fun _ => 0) (fun x => x) geoDec
        [⟨treeA⟩, ⟨treeB⟩] (by decide)
    exact ⟨acc, hacc⟩⟩

/-- C7: running the per-node aggregator over a forest with one shared
accumulator and count (the children loop, starting from the zero dict and
count 0) equals running it per tree — each from its own zero-initialised
accumulator and count — and summing the per-tree accumulators term-by-term
and the per-tree counts. -/
theorem aggregator_accumulation_linearity (pe : ℚ → ℚ)
    (nrl : ℚ → TreeNode → List (String × ℚ)) (forest : List TreeNode)
    (hok : namesOkOn pe nrl (TreeNode.allNodesList forest) (keysD initLosses)) :
    ∃ parts : List (LDict ℚ × ℕ),
      forest.map (fun t => forward_one_obj pe nrl t initLosses 0) =
        parts.map Except.ok ∧
      forward_one_obj_children pe nrl forest initLosses 0 =
        .ok ((parts.map Prod.fst).foldl dictAdd initLosses,
          (parts.map Prod.snd).sum) := by
  refine ⟨forest.map (fun t =>
    (mapVals (fun j x => x + nodesDelta pe nrl t.allNodes j) initLosses,
     t.size)), ?_, ?_⟩
  · rw [List.map_map]
    apply List.map_congr_left
    intro t ht
    have hokt : namesOkOn pe nrl t.allNodes (keysD initLosses) := fun n hn =>
      hok n (mem_allNodesList_of_mem ht hn)
    simpa using
      forward_one_obj_char pe nrl t initLosses 0 initLosses_keys_nodup hokt
  · rw [forward_one_obj_children_char pe nrl forest initLosses 0
      initLosses_keys_nodup hok]
    simp only [List.map_map, Function.comp_def]
    rw [foldl_parts_zero pe nrl forest, zero_add, sizeList_eq_sum_map]

/-- Closed witness for the linearity theorem: it applies to the concrete
two-tree forest of the example scenario. -/
theorem aggregator_accumulation_linearity_witness :
    namesOkOn (fun x => x) geoDec (TreeNode.allNodesList [treeA, treeB])
      (keysD initLosses) ∧
    ∃ parts : List (LDict ℚ × ℕ),
      [treeA, treeB].map (fun t =>
        forward_one_obj (fun x => x) geoDec t initLosses 0) =
        parts.map Except.ok :=
  ⟨by decide, by
    obtain ⟨parts, hparts, _⟩ :=
      aggregator_accumulation_linearity (fun x => x) geoDec [treeA, treeB]
        (by decide)
    exact ⟨parts, hparts⟩⟩

/-- C10: the accumulator of `forward` is initialised with exactly the ten
loss-term names in source order; the per-node accumulation of
`forward_one_node` only rebinds existing keys (the key list is invariant
on success); and when the decoder's per-node loss mapping contains a name
outside the accumulator's key set, the aggregator raises KeyError (an
error naming a key) rather than silently creating a new slot. -/
theorem accumulator_key_invariant :
    keysD initLosses = ["latent", "geo", "center", "scale", "leaf",
      "exists", "semantic", "edge_exists", "sym", "adj"] ∧
    (∀ (pe : ℚ → ℚ) (nrl : ℚ → TreeNode → List (String × ℚ))
      (node : TreeNode) (d d' : LDict ℚ),
      forward_one_node pe nrl node d = .ok d' → keysD d' = keysD d) ∧
    (∀ (pe : ℚ → ℚ) (nrl : ℚ → TreeNode → List (String × ℚ))
      (node : TreeNode) (d : LDict ℚ),
      (∃ p ∈ nrl (pe node.norm_geo) node, p.1 ∉ keysD d) →
      ∃ e, forward_one_node pe nrl node d = .error e) := by
  refine ⟨by decide, ?_, ?_⟩
  · intro pe nrl node d d' h
    rw [forward_one_node] at h
    exact addLosses_ok_keys h
  · intro pe nrl node d h
    rw [forward_one_node]
    exact addLosses_error_of_bad h

/-- Closed witness for the key-invariant theorem: a decoder emitting the
unknown name `bogus` on a one-node tree makes `forward_one_node` raise,
and a decoder emitting `geo` keeps the key list unchanged. -/
theorem accumulator_key_invariant_witness :
    (∃ p ∈ (fun (_ : ℚ) (_ : TreeNode) => [("bogus", (1 : ℚ))])
        ((fun x => x) (TreeNode.node 0 []).norm_geo) (TreeNode.node 0 []),
      p.1 ∉ keysD initLosses) ∧
    (∃ e, forward_one_node (fun x => x)
      (fun _ _ => [("bogus", (1 : ℚ))]) (TreeNode.node 0 []) initLosses =
        .error e) :=
  ⟨by decide,
    accumulator_key_invariant.2.2 (fun x => x)
      (fun _ _ => [("bogus", (1 : ℚ))]) (TreeNode.node 0 []) initLosses
      (by decide)⟩

/-- C8: the losses returned by the batch forward pass do not depend on the
output of the frozen structure encoder's `encode_structure` call: two runs
of `forward` that differ only in the function producing that latent code
return identical results. -/
theorem batchAccum_encode_structure_irrelevant (e1 e2 : PObject → ℚ)
    (pe : ℚ → ℚ) (nrl : ℚ → TreeNode → List (String × ℚ)) :
    ∀ (objs : List PObject) (d : LDict ℚ) (c : ℕ),
      batchAccum e1 pe nrl objs d c = batchAccum e2 pe nrl objs d c
  | [], _, _ => rfl
  | o :: os, d, c => by
    rw [batchAccum, batchAccum]
    cases forward_one_obj pe nrl o.root d c with
    | error e => rfl
    | ok p =>
      exact batchAccum_encode_structure_irrelevant e1 e2 pe nrl os p.1 p.2

/-- C8 (claim theorem): the total loss and every per-term value returned
by `forward` are independent of the latent code `encode_structure`
returns. -/
theorem forward_independent_of_encode_structure (e1 e2 : PObject → ℚ)
    (pe : ℚ → ℚ) (nrl : ℚ → TreeNode → List (String × ℚ)) (conf : Conf)
    (objects : List PObject) :
    forward e1 pe nrl conf objects = forward e2 pe nrl conf objects := by
  rw [forward, forward,
    batchAccum_encode_structure_irrelevant e1 e2 pe nrl objects initLosses 0]

/-- One of the three networks built by `train`: the recursive structure
encoder (`encoder = models.RecursiveEncoder(...)`), the recursive
structure decoder (`decoder = models.RecursiveDecoder(conf)`), and the
point feature extractor (`pointencoder = PointNetEncoder()`). -/
inductive Component : Type where
  | structEncoder : Component
  | structDecoder : Component
  | pointEncoder : Component
deriving DecidableEq

/-- The freezing/optimizer construction performed by `train` after the
stage-2 checkpoint load, transcribed statement by statement:
`encoder.eval()` and `requires_grad = False` over `encoder.parameters()`;
`decoder.eval()` and `requires_grad = False` over `decoder.parameters()`;
`point_opt = torch.optim.Adam(encoder.parameters(), lr=conf.lr)`;
`point_scheduler = StepLR(point_opt, ...)`. -/
structure TrainSetup : Type where
  frozen : List Component
  adamParams : Component
  schedulerOptParams : Component

/-- The setup state `train` actually builds: the Adam optimizer receives
`encoder.parameters()` — the frozen structure encoder — and the step
scheduler wraps that same optimizer. -/
def stage3Setup : TrainSetup :=
  { frozen := [.structEncoder, .structDecoder]
  , adamParams := .structEncoder
  , schedulerOptParams := .structEncoder }

/-- C2 (evidence of the code's actual behaviour): the optimizer and the
step-decay schedule of `train` are constructed over the frozen structure
encoder's parameters, not over the point feature extractor's; the point
encoder's parameters belong to no optimizer, while the encoder and
decoder are indeed frozen. -/
theorem optimizer_built_on_frozen_encoder :
    stage3Setup.adamParams = Component.structEncoder ∧
    stage3Setup.adamParams ≠ Component.pointEncoder ∧
    stage3Setup.schedulerOptParams ≠ Component.pointEncoder ∧
    Component.structEncoder ∈ stage3Setup.frozen ∧
    Component.structDecoder ∈ stage3Setup.frozen ∧
    Component.pointEncoder ∉ stage3Setup.frozen := by decide

/-- A call to `utils.save_checkpoint`, identified by its arguments. -/
structure SaveCall : Type where
  modelNames : List String
  prependEpoch : Bool
  optimizerNames : List String
deriving DecidableEq

/-- The periodic checkpoint inside the batch loop of `train`:
`save_checkpoint(models=[pointencoder], model_names=["pointencoder"],
..., prepend_epoch=True, optimizers=[point_opt],
optimizer_names=["pointencoder"])`. -/
def periodicCheckpoint : SaveCall :=
  { modelNames := ["pointencoder"]
  , prependEpoch := true
  , optimizerNames := ["pointencoder"] }

/-- The final checkpoint after all epochs of `train`:
`save_checkpoint(models=models, model_names=model_names, ...,
prepend_epoch=False, optimizers=[point_opt],
optimizer_names=["pointencoder"])`, where `models = [encoder, decoder]`
and `model_names = ["encoder", "decoder"]` (the list built before the
stage-2 load; the point encoder was never added to it). -/
def finalCheckpoint : SaveCall :=
  { modelNames := ["encoder", "decoder"]
  , prependEpoch := false
  , optimizerNames := ["pointencoder"] }

/-- C4 (evidence of the code's actual behaviour): the final checkpoint
saves the frozen encoder and decoder weights and the point optimizer's
state without an epoch prefix, but the trainable point extractor's
weights are NOT among the saved models. -/
theorem final_checkpoint_omits_point_extractor :
    finalCheckpoint.modelNames = ["encoder", "decoder"] ∧
    "pointencoder" ∉ finalCheckpoint.modelNames ∧
    finalCheckpoint.prependEpoch = false ∧
    finalCheckpoint.optimizerNames = ["pointencoder"] ∧
    periodicCheckpoint.modelNames = ["pointencoder"] ∧
    periodicCheckpoint.prependEpoch = true := by decide

/-- The operations of one training step of `train`, one constructor per
source statement. -/
inductive StepOp : Type where
  | forwardPass : StepOp
  | optimizerStep : StepOp
  | schedulerStep : StepOp
  | zeroGrad : StepOp
  | backwardPass : StepOp
deriving DecidableEq, BEq

/-- The body of the training-batch loop of `train`, in source order:
`total_loss = forward(...)`; `point_opt.step()`;
`point_scheduler.step()`; `point_opt.zero_grad()`;
`total_loss.backward()`. -/
def trainStepOps : List StepOp :=
  [.forwardPass, .optimizerStep, .schedulerStep, .zeroGrad, .backwardPass]

/-- C5: in every training step the optimizer step and the scheduler step
are executed after the forward pass but before gradients are zeroed and
before the backward pass on the returned total loss; backward is never
invoked before the optimizer step within the same training step. -/
theorem train_step_op_order :
    trainStepOps = [.forwardPass, .optimizerStep, .schedulerStep,
      .zeroGrad, .backwardPass] ∧
    trainStepOps.indexOf .forwardPass < trainStepOps.indexOf .optimizerStep ∧
    trainStepOps.indexOf .optimizerStep < trainStepOps.indexOf .zeroGrad ∧
    trainStepOps.indexOf .optimizerStep < trainStepOps.indexOf .backwardPass ∧
    trainStepOps.indexOf .schedulerStep < trainStepOps.indexOf .zeroGrad ∧
    trainStepOps.indexOf .schedulerStep < trainStepOps.indexOf .backwardPass ∧
    trainStepOps.count .backwardPass = 1 ∧
    trainStepOps.count .optimizerStep = 1 := by decide

/-- A filesystem mutation performed by the run-setup code of `train`. -/
inductive FsOp : Type where
  | removeLogDir : FsOp
  | removeModelDir : FsOp
  | makeModelDir : FsOp
  | makeLogDir : FsOp
deriving DecidableEq

/-- Outcome of the run-directory handling at the top of `train`. -/
structure SetupOutcome : Type where
  prompted : Bool
  exited : Bool
  fsOps : List FsOp

/-- The run-directory handling at the top of `train`, transcribed from
the source: if the log or model directory for the run name exists, prompt
(`input(...)`) and call `sys.exit()` unless the response is exactly `y`;
only afterwards delete whichever directories exist (`shutil.rmtree`) and
create the fresh model and log directories (`os.makedirs`), in source
order. -/
def runSetup (logExists modelExists : Bool) (response : String) :
    SetupOutcome :=
  if logExists || modelExists then
    if response ≠ "y" then
      { prompted := true, exited := true, fsOps := [] }
    else
      { prompted := true, exited := false,
        fsOps := (if logExists then [FsOp.removeLogDir] else []) ++
          (if modelExists then [FsOp.removeModelDir] else []) ++
          [FsOp.makeModelDir, FsOp.makeLogDir] }
  else
    { prompted := false, exited := false,
      fsOps := [FsOp.makeModelDir, FsOp.makeLogDir] }

/-- C9: when a run output already exists, the user is prompted, and any
response other than exactly `y` terminates the process before any
directory deletion or creation — no filesystem mutation happens on a
declined overwrite. -/
theorem declined_overwrite_no_mutation (logE modelE : Bool) (resp : String)
    (hex : (logE || modelE) = true) (hresp : resp ≠ "y") :
    (runSetup logE modelE resp).prompted = true ∧
    (runSetup logE modelE resp).exited = true ∧
    (runSetup logE modelE resp).fsOps = [] := by
  rw [runSetup, if_pos hex, if_pos hresp]
  exact ⟨rfl, rfl, rfl⟩

/-- Closed witness: with an existing log directory and the response `n`,
the process exits with no filesystem mutation. -/
theorem declined_overwrite_no_mutation_witness :
    ((true || false) = true ∧ "n" ≠ "y") ∧
    ((runSetup true false "n").prompted = true ∧
      (runSetup true false "n").exited = true ∧
      (runSetup true false "n").fsOps = []) :=
  ⟨⟨by decide, by decide⟩,
    declined_overwrite_no_mutation true false "n" (by decide) (by decide)⟩

/-- The validation interleave loop of `train`: starting from `v` consumed
validation batches (`v = valdt_batch_ind + 1`, with `valdt_fraction_done
= v / vNum`), the while loop pulls the next validation batch while
`valdt_fraction_done <= train_fraction_done and valdt_batch_ind + 1 <
valdt_num_batch`.  The fuel `vNum - v` bounds the remaining iterations
exactly: when it reaches zero, `v = vNum` and the loop condition is false
anyway, so the fuel never cuts the loop short. -/
def vloop : ℕ → ℕ → ℚ → ℕ → ℕ
  | 0, _, _, v => v
  | fuel + 1, vNum, tf, v =>
    if (v : ℚ) / vNum ≤ tf ∧ v < vNum then vloop fuel vNum tf (v + 1) else v

/-- The validation cursor across one epoch of `train`: `epochV tNum vNum n`
is the number of validation batches consumed after the first `n` training
batches of the epoch (the cursor starts at `valdt_batch_ind = -1`, i.e.
0 consumed, and after training batch index `n` the training fraction is
`(n + 1) / tNum` and the interleave loop runs). -/
def epochV (tNum vNum : ℕ) : ℕ → ℕ
  | 0 => 0
  | n + 1 =>
    vloop (vNum - epochV tNum vNum n) vNum (((n : ℚ) + 1) / tNum)
      (epochV tNum vNum n)

theorem vloop_ge : ∀ (fuel vNum : ℕ) (tf : ℚ) (v : ℕ),
    v ≤ vloop fuel vNum tf v := by
  intro fuel
  induction fuel with
  | zero => intro vNum tf v; rw [vloop]
  | succ fuel ih =>
    intro vNum tf v
    rw [vloop]
    split
    · exact le_trans (Nat.le_succ v) (ih vNum tf (v + 1))
    · exact le_refl v

theorem vloop_le : ∀ (fuel vNum : ℕ) (tf : ℚ) (v : ℕ), v ≤ vNum →
    vloop fuel vNum tf v ≤ vNum := by
  intro fuel
  induction fuel with
  | zero => intro vNum tf v h; rw [vloop]; exact h
  | succ fuel ih =>
    intro vNum tf v h
    rw [vloop]
    split
    · next hc => exact ih vNum tf (v + 1) hc.2
    · exact h

theorem vloop_frac : ∀ (fuel vNum : ℕ) (tf : ℚ) (v : ℕ),
    (v : ℚ) / vNum ≤ tf + 1 / vNum →
    (vloop fuel vNum tf v : ℚ) / vNum ≤ tf + 1 / vNum := by
  intro fuel
  induction fuel with
  | zero => intro vNum tf v h; rw [vloop]; exact h
  | succ fuel ih =>
    intro vNum tf v h
    rw [vloop]
    split
    · next hc =>
      apply ih
      have hv1 : ((v + 1 : ℕ) : ℚ) / vNum = (v : ℚ) / vNum + 1 / vNum := by
        push_cast
        rw [add_div]
      rw [hv1]
      exact add_le_add_right hc.1 _
    · exact h

theorem vloop_exhausts : ∀ (fuel vNum : ℕ) (tf : ℚ) (v : ℕ), v ≤ vNum →
    vNum - v ≤ fuel → 1 ≤ tf → vloop fuel vNum tf v = vNum := by
  intro fuel
  induction fuel with
  | zero =>
    intro vNum tf v hle hfuel _
    rw [vloop]
    omega
  | succ fuel ih =>
    intro vNum tf v hle hfuel htf
    rcases Nat.lt_or_ge v vNum with hv | hv
    · rw [vloop, if_pos]
      · exact ih vNum tf (v + 1) hv (by omega) htf
      · refine ⟨?_, hv⟩
        have hV : (0 : ℚ) < vNum := by
          have : 0 < vNum := by omega
          exact_mod_cast this
        have hfr : (v : ℚ) / vNum < 1 := by
          rw [div_lt_one hV]
          exact_mod_cast hv
        exact le_of_lt (lt_of_lt_of_le hfr htf)
    · have hveq : v = vNum := by omega
      rw [vloop, if_neg]
      · exact hveq
      · intro hc
        omega

theorem epochV_le (tNum vNum : ℕ) : ∀ n, epochV tNum vNum n ≤ vNum := by
  intro n
  induction n with
  | zero => rw [epochV]; exact Nat.zero_le vNum
  | succ n ih => rw [epochV]; exact vloop_le _ _ _ _ ih

theorem epochV_frac (tNum vNum : ℕ) (hT : 1 ≤ tNum) :
    ∀ n, (epochV tNum vNum n : ℚ) / vNum ≤ (n : ℚ) / tNum + 1 / vNum := by
  intro n
  induction n with
  | zero =>
    rw [epochV]
    simp only [Nat.cast_zero, zero_div]
    positivity
  | succ n ih =>
    rw [epochV]
    push_cast
    apply vloop_frac
    have hTpos : (0 : ℚ) < tNum := by
      have : 0 < tNum := hT
      exact_mod_cast this
    have hmono : (n : ℚ) / tNum ≤ ((n : ℚ) + 1) / tNum := by
      gcongr
      linarith
    calc (epochV tNum vNum n : ℚ) / vNum ≤ (n : ℚ) / tNum + 1 / vNum := ih
      _ ≤ ((n : ℚ) + 1) / tNum + 1 / vNum := add_le_add_right hmono _

/-- C6: in every epoch whose training dataloader yields at least one
batch, the interleave loop consumes every validation batch exactly once —
the cursor starts at 0, only ever advances to the next validation batch,
never overshoots the validation batch count, and ends the epoch exactly
at it — and after every training batch the validation progress fraction
exceeds the training progress fraction by at most one validation batch
(`1 / vNum`). -/
theorem valdt_interleave_coverage (tNum vNum : ℕ) (hT : 1 ≤ tNum) :
    epochV tNum vNum tNum = vNum ∧
    (∀ n, epochV tNum vNum n ≤ vNum) ∧
    (∀ n, n < tNum → (epochV tNum vNum (n + 1) : ℚ) / vNum ≤
      ((n : ℚ) + 1) / tNum + 1 / vNum) := by
  refine ⟨?_, epochV_le tNum vNum, ?_⟩
  · obtain ⟨t, rfl⟩ : ∃ t, tNum = t + 1 := ⟨tNum - 1, by omega⟩
    rw [epochV]
    apply vloop_exhausts
    · exact epochV_le _ _ t
    · exact le_refl _
    · have hTpos : (0 : ℚ) < (t : ℚ) + 1 := by positivity
      rw [show ((t : ℚ) + 1) / ((t + 1 : ℕ) : ℚ) = 1 from by
        push_cast
        exact div_self (ne_of_gt hTpos)]
  · intro n _
    have h := epochV_frac tNum vNum hT (n + 1)
    rw [show (((n + 1 : ℕ)) : ℚ) = (n : ℚ) + 1 from by push_cast; rfl] at h
    exact h

/-- Closed witness: an epoch with 2 training batches and 3 validation
batches consumes all 3 validation batches. -/
theorem valdt_interleave_coverage_witness :
    (1 ≤ 2) ∧ epochV 2 3 2 = 3 :=
  ⟨by decide, (valdt_interleave_coverage 2 3 (by decide)).1⟩

/-- C1 (evidence of the code's actual behaviour): on a batch with zero
total tree nodes the batch forward pass does not raise — the division of
each zero slot by `cnt = 0` is IEEE `0/0`, so `forward` returns
successfully with every slot NaN and a NaN total loss, instead of the
loud fatal error the spec demands. -/
theorem forward_zero_node_batch_silent_nan :
    forward (fun _ => 0) (fun x => x) (fun _ _ => []) unitConf [] =
      .ok (allNanLosses, FVal.nan) := by
  simp +decide [forward, batchAccum, normalizeLosses, mulKey, totalOf,
    initLosses, allNanLosses, unitConf, lookupD, setD, fdivCnt, FVal.smul,
    FVal.add, bind, Except.bind, pure, Except.pure]



